import Mathlib

/-!
Verification of the frame-interpolated replay engine of the F1 dashboard
(`ReplayPage`): the data model, the playback clock, the sub-frame position
interpolation, the live-timing aggregation and the team-radio cue scheduler,
embedded shallowly from the TypeScript source.  Numeric JavaScript values are
modelled as rationals (`ℚ`), integer-valued fields as `ℤ`/`ℕ`, records as
association lists, and the mutable React state as explicit state passing.
-/

namespace F1Replay

/-- `interface DriverPosition`: one driver's sample within a frame. -/
structure DriverPosition where
  x : ℚ
  y : ℚ
  dist : ℚ
  lap : ℤ
  rel_dist : ℚ
  tyre : ℚ
  position : ℤ
  speed : ℚ
  gear : ℤ
  drs : ℤ
  throttle : ℚ
  brake : ℚ
deriving DecidableEq

/-- `interface Weather`: the optional per-frame weather snapshot. -/
structure Weather where
  track_temp : ℚ
  air_temp : ℚ
  humidity : ℚ
  wind_speed : ℚ
  wind_direction : ℚ
  rain_state : String
deriving DecidableEq

/-- `interface Frame`: one timestamped sample of full race state.  The
`drivers` record (driver code → sample) is modelled as an association list. -/
structure Frame where
  t : ℚ
  lap : ℤ
  drivers : List (String × DriverPosition)
  weather : Option Weather := none
deriving DecidableEq

/-- `interface TeamRadioClip`: a radio cue on the same time axis as `Frame.t`. -/
structure TeamRadioClip where
  t : ℚ
  driver : String
  driverNumber : ℤ
  url : String
deriving DecidableEq

/-- One entry of a driver's `lapTiming[...].laps` table. -/
structure LapEntry where
  time : Option ℚ
  s1 : Option ℚ
  s2 : Option ℚ
  s3 : Option ℚ
  is_pb : Bool
  compound : String
deriving DecidableEq

/-- `frame.drivers[code]`: record lookup on the association list. -/
def lookupDriver (drivers : List (String × DriverPosition)) (code : String) :
    Option DriverPosition :=
  (drivers.find? (fun p => p.1 == code)).map Prod.snd

/-- The interpolated draw position of driver `code` computed by `drawTrack`:
`nextFrame = frames[Math.min(frameIndex + 1, frames.length - 1)]`,
`nextPos = nextFrame?.drivers[code] || pos`, and componentwise
`pos + (nextPos - pos) * interpolationProgress`.  `none` when the frame or the
driver's sample in it is missing (`drawTrack` then draws nothing for it). -/
def interpolatedPos (frames : List Frame) (frameIndex : ℕ) (code : String)
    (progress : ℚ) : Option (ℚ × ℚ) :=
  match frames[frameIndex]? with
  | none => none
  | some frame =>
    match lookupDriver frame.drivers code with
    | none => none
    | some pos =>
      let nextFrame := frames[min (frameIndex + 1) (frames.length - 1)]?
      let nextPos := (nextFrame.bind fun nf => lookupDriver nf.drivers code).getD pos
      some (pos.x + (nextPos.x - pos.x) * progress,
            pos.y + (nextPos.y - pos.y) * progress)

/-- C1.  For a valid frame index `i` with driver `code` sampled at `pos`:
at fraction 0 the interpolated position is frame `i`'s raw position; for any
fraction `f` it is the linear interpolation `(1-f)·pos + f·nextPos` towards the
driver's position in frame `min(i+1, last)` (so at `f = 1` it is exactly the
next frame's raw position, hence approached as `f → 1⁻`); and when the driver
is absent from the next frame the current position is held unchanged. -/
theorem interpolation_is_lerp (frames : List Frame) (i : ℕ) (frame : Frame)
    (hf : frames[i]? = some frame) (code : String) (pos : DriverPosition)
    (hpos : lookupDriver frame.drivers code = some pos) (f : ℚ) :
    interpolatedPos frames i code 0 = some (pos.x, pos.y) ∧
    (∀ nf nextPos, frames[min (i + 1) (frames.length - 1)]? = some nf →
      lookupDriver nf.drivers code = some nextPos →
      interpolatedPos frames i code f =
        some ((1 - f) * pos.x + f * nextPos.x, (1 - f) * pos.y + f * nextPos.y) ∧
      interpolatedPos frames i code 1 = some (nextPos.x, nextPos.y)) ∧
    (∀ nf, frames[min (i + 1) (frames.length - 1)]? = some nf →
      lookupDriver nf.drivers code = none →
      interpolatedPos frames i code f = some (pos.x, pos.y)) := by
  refine ⟨?_, ?_, ?_⟩
  · simp only [interpolatedPos, hf, hpos]
    ring_nf
  · intro nf nextPos hnf hnp
    constructor
    · simp only [interpolatedPos, hf, hpos, hnf, Option.some_bind, hnp, Option.getD_some,
        Option.some.injEq, Prod.mk.injEq]
      constructor <;> ring
    · simp only [interpolatedPos, hf, hpos, hnf, Option.some_bind, hnp, Option.getD_some,
        Option.some.injEq, Prod.mk.injEq]
      constructor <;> ring
  · intro nf hnf hnone
    simp only [interpolatedPos, hf, hpos, hnf, Option.some_bind, hnone, Option.getD_none]
    ring_nf

/-- A two-frame concrete dataset for the interpolation witness: driver VER
moves from (0, 0) to (10, 20). -/
def sampleVER0 : DriverPosition :=
  ⟨0, 0, 0, 1, 0, 1, 1, 300, 8, 0, 100, 0⟩

/-- VER's sample in the second witness frame. -/
def sampleVER1 : DriverPosition :=
  ⟨10, 20, 5, 1, 0, 1, 1, 305, 8, 12, 100, 0⟩

/-- First witness frame. -/
def witnessFrame0 : Frame := ⟨0, 1, [("VER", sampleVER0)], none⟩

/-- Second witness frame. -/
def witnessFrame1 : Frame := ⟨1, 1, [("VER", sampleVER1)], none⟩

/-- The witness frames. -/
def witnessFrames : List Frame := [witnessFrame0, witnessFrame1]

/-- Witness for C1 at a concrete two-frame dataset and fraction 1/2. -/
theorem interpolation_is_lerp_witness :
    interpolatedPos witnessFrames 0 "VER" 0 = some (sampleVER0.x, sampleVER0.y) ∧
    interpolatedPos witnessFrames 0 "VER" (1/2) =
      some ((1 - 1/2) * sampleVER0.x + (1/2) * sampleVER1.x,
            (1 - 1/2) * sampleVER0.y + (1/2) * sampleVER1.y) := by
  have h := interpolation_is_lerp witnessFrames 0 witnessFrame0
    rfl "VER" sampleVER0 rfl (1/2)
  exact ⟨h.1, (h.2.1 witnessFrame1 sampleVER1 rfl rfl).1⟩

/-- The playback-clock state kept by `ReplayPage` in the `frameIndex` and
`isPlaying` React state atoms. -/
structure PlaybackState where
  frameIndex : ℤ
  isPlaying : Bool
deriving DecidableEq

/-- `setFrameIndex(0)`: what both restart paths do to the frame index, and the
spec's `seek(0)`. -/
def seekZero (s : PlaybackState) : PlaybackState :=
  { s with frameIndex := 0 }

/-- `setIsPlaying(false)`: the spec's `pause()`. -/
def pause (s : PlaybackState) : PlaybackState :=
  { s with isPlaying := false }

/-- The operations of `ReplayPage` that change `frameIndex`: the animation
tick and every keyboard / button / progress-bar seek path. -/
inductive FrameOp where
  /-- the `setFrameIndex` updater of `animate` (runs while playing) -/
  | tick
  /-- ArrowRight: `Math.min(prev + 10, (raceData?.frames.length || 1) - 1)` -/
  | arrowRight
  /-- ArrowLeft: `Math.max(prev - 10, 0)` -/
  | arrowLeft
  /-- KeyR: `setFrameIndex(0); setIsPlaying(false)` -/
  | keyRestart
  /-- the restart button: `setFrameIndex(0)` -/
  | buttonRestart
  /-- the rewind button: `Math.max(prev - 50, 0)` -/
  | rewind
  /-- the fast-forward button: `Math.min(prev + 50, raceData.frames.length - 1)` -/
  | fastForward
  /-- the progress-bar click: `Math.floor(percent * (raceData.frames.length - 1))` -/
  | progressClick (percent : ℚ)
deriving DecidableEq

/-- One `frameIndex`-changing operation applied to the playback state, for a
loaded dataset with `len` frames. -/
def applyFrameOp (len : ℕ) (op : FrameOp) (s : PlaybackState) : PlaybackState :=
  match op with
  | .tick =>
    if s.frameIndex ≥ (len : ℤ) - 1 then { s with isPlaying := false }
    else { s with frameIndex := s.frameIndex + 1 }
  | .arrowRight =>
    { s with frameIndex := min (s.frameIndex + 10) ((if len = 0 then 1 else (len : ℤ)) - 1) }
  | .arrowLeft => { s with frameIndex := max (s.frameIndex - 10) 0 }
  | .keyRestart => { s with frameIndex := 0, isPlaying := false }
  | .buttonRestart => { s with frameIndex := 0 }
  | .rewind => { s with frameIndex := max (s.frameIndex - 50) 0 }
  | .fastForward => { s with frameIndex := min (s.frameIndex + 50) ((len : ℤ) - 1) }
  | .progressClick percent => { s with frameIndex := ⌊percent * ((len : ℤ) - 1)⌋ }

/-- C3.  For a loaded dataset with at least one frame, every
`frameIndex`-changing operation keeps `0 ≤ frameIndex ≤ frames.length - 1`
(a progress-bar click carries a pointer fraction in `[0, 1]`); and the tick at
the last index saturates there and auto-pauses (`isPlaying` becomes false). -/
theorem frameIndex_stays_in_range (len : ℕ) (hlen : 1 ≤ len) (op : FrameOp)
    (s : PlaybackState) (h0 : 0 ≤ s.frameIndex) (h1 : s.frameIndex ≤ (len : ℤ) - 1)
    (hp : ∀ p : ℚ, op = .progressClick p → 0 ≤ p ∧ p ≤ 1) :
    (0 ≤ (applyFrameOp len op s).frameIndex ∧
      (applyFrameOp len op s).frameIndex ≤ (len : ℤ) - 1) ∧
    (op = .tick → s.frameIndex = (len : ℤ) - 1 →
      applyFrameOp len op s = { s with isPlaying := false }) := by
  constructor
  · cases op with
    | tick =>
      simp only [applyFrameOp]
      split <;> dsimp only <;> omega
    | arrowRight =>
      have : len ≠ 0 := by omega
      simp only [applyFrameOp, if_neg this, le_min_iff, min_le_iff]
      omega
    | arrowLeft => simp only [applyFrameOp, le_max_iff, max_le_iff]; omega
    | keyRestart => simp only [applyFrameOp]; omega
    | buttonRestart => simp only [applyFrameOp]; omega
    | rewind => simp only [applyFrameOp, le_max_iff, max_le_iff]; omega
    | fastForward => simp only [applyFrameOp, le_min_iff, min_le_iff]; omega
    | progressClick p =>
      obtain ⟨hp0, hp1⟩ := hp p rfl
      have hlen1 : (0 : ℚ) ≤ (len : ℤ) - 1 := by
        push_cast
        have : (1 : ℚ) ≤ (len : ℚ) := by exact_mod_cast hlen
        linarith
      simp only [applyFrameOp]
      constructor
      · exact Int.floor_nonneg.mpr (mul_nonneg hp0 hlen1)
      · have hle : p * (((len : ℤ) : ℚ) - 1) ≤ ((len : ℤ) : ℚ) - 1 := by
          nlinarith
        calc ⌊p * (((len : ℤ) : ℚ) - 1)⌋ ≤ ⌊((len : ℤ) : ℚ) - 1⌋ := Int.floor_le_floor hle
          _ = (len : ℤ) - 1 := by
              rw [show (((len : ℤ) : ℚ) - 1) = (((len : ℤ) - 1 : ℤ) : ℚ) by push_cast; ring,
                Int.floor_intCast]
  · intro hop hidx
    subst hop
    simp only [applyFrameOp, hidx, ge_iff_le, le_refl, if_pos]

/-- Witness for C3: a fast-forward from index 0 in a 30-frame dataset stays in
range, and a tick at the last index of a 3-frame dataset pauses playback. -/
theorem frameIndex_stays_in_range_witness :
    (0 ≤ (applyFrameOp 30 .fastForward ⟨0, true⟩).frameIndex ∧
      (applyFrameOp 30 .fastForward ⟨0, true⟩).frameIndex ≤ (30 : ℤ) - 1) ∧
    (0 ≤ (applyFrameOp 3 .tick ⟨2, true⟩).frameIndex ∧
      (applyFrameOp 3 .tick ⟨2, true⟩).frameIndex ≤ (3 : ℤ) - 1) ∧
    applyFrameOp 3 .tick ⟨2, true⟩ = ⟨2, false⟩ := by
  refine ⟨(frameIndex_stays_in_range 30 (by decide) .fastForward ⟨0, true⟩
      (by decide) (by decide) (fun p hp => by cases hp)).1, ?_, ?_⟩
  · exact (frameIndex_stays_in_range 3 (by decide) .tick ⟨2, true⟩
      (by decide) (by decide) (fun p hp => by cases hp)).1
  · exact (frameIndex_stays_in_range 3 (by decide) .tick ⟨2, true⟩
      (by decide) (by decide) (fun p hp => by cases hp)).2 rfl (by decide)

/-- Counterexample for C9.  The restart button (`onClick={() => setFrameIndex(0)}`)
does not pause: from a playing state at index 5 it yields `(0, playing)`,
while `seek(0)` followed by `pause()` yields `(0, paused)`. -/
theorem restart_button_ne_seek_pause :
    applyFrameOp 10 .buttonRestart ⟨5, true⟩ ≠ pause (seekZero ⟨5, true⟩) ∧
    applyFrameOp 10 .buttonRestart ⟨5, true⟩ = ⟨0, true⟩ ∧
    pause (seekZero ⟨5, true⟩) = ⟨0, false⟩ := by
  refine ⟨?_, rfl, rfl⟩
  decide

/-- C9 as amended.  The keyboard KeyR handler equals `seek(0)` followed by
`pause()` (frame index 0, playback stopped); the restart button performs only
`seek(0)`: it zeroes the frame index and leaves `isPlaying` unchanged. -/
theorem restart_paths (len : ℕ) (s : PlaybackState) :
    applyFrameOp len .keyRestart s = pause (seekZero s) ∧
    applyFrameOp len .buttonRestart s = seekZero s ∧
    (applyFrameOp len .buttonRestart s).isPlaying = s.isPlaying := by
  refine ⟨rfl, rfl, rfl⟩

/-- The speed-changing operations of `ReplayPage`. -/
inductive SpeedOp where
  /-- ArrowUp: `Math.min(prev * 2, 8)` -/
  | up
  /-- ArrowDown: `Math.max(prev / 2, 0.5)` -/
  | down
  /-- the speed button: `prev === 8 ? 0.5 : prev * 2` -/
  | cycle
deriving DecidableEq

/-- One speed operation applied to `playbackSpeed`. -/
def applySpeedOp : SpeedOp → ℚ → ℚ
  | .up, s => min (s * 2) 8
  | .down, s => max (s / 2) (1/2)
  | .cycle, s => if s = 8 then 1/2 else s * 2

/-- A sequence of speed operations applied in order. -/
def applySpeedOps (ops : List SpeedOp) (s : ℚ) : ℚ :=
  ops.foldl (fun a op => applySpeedOp op a) s

/-- Counterexample for C4.  The speed 5 lies in `[0.5, 8]`, yet one press of
the cycling speed button (`prev === 8 ? 0.5 : prev * 2`) yields 10, outside
`[0.5, 8]`: the claimed invariant fails for arbitrary starting values. -/
theorem speed_cycle_escapes_range :
    ((1/2 : ℚ) ≤ 5 ∧ (5 : ℚ) ≤ 8) ∧
    applySpeedOps [.cycle] 5 = 10 ∧
    ¬((10 : ℚ) ≤ 8) := by
  refine ⟨⟨by norm_num, by norm_num⟩, ?_, by norm_num⟩
  simp only [applySpeedOps, List.foldl_cons, List.foldl_nil, applySpeedOp]
  norm_num

/-- The speeds reachable in the app: the initial speed is 1 and every speed
operation maps this set into itself. -/
def reachableSpeed (s : ℚ) : Prop :=
  s = 1/2 ∨ s = 1 ∨ s = 2 ∨ s = 4 ∨ s = 8

/-- One speed operation preserves the reachable set. -/
theorem applySpeedOp_reachable (op : SpeedOp) (s : ℚ) (hs : reachableSpeed s) :
    reachableSpeed (applySpeedOp op s) := by
  rcases hs with h | h | h | h | h <;> subst h <;> cases op <;>
    simp [applySpeedOp, reachableSpeed] <;> norm_num [min_def, max_def]

/-- C4 as amended.  The keyboard doubling/halving operations keep any speed in
`[0.5, 8]` within `[0.5, 8]`; with the cycling speed button included, the
invariant holds for every speed in the reachable set `{0.5, 1, 2, 4, 8}`
(which contains the initial speed 1 and is closed under all three
operations), but not for arbitrary values of `[0.5, 8]`. -/
theorem speed_ops_keep_range (s : ℚ) (hs : reachableSpeed s) (ops : List SpeedOp) :
    (reachableSpeed (applySpeedOps ops s) ∧
      1/2 ≤ applySpeedOps ops s ∧ applySpeedOps ops s ≤ 8) ∧
    (∀ t : ℚ, 1/2 ≤ t → t ≤ 8 →
      (1/2 ≤ applySpeedOp .up t ∧ applySpeedOp .up t ≤ 8) ∧
      (1/2 ≤ applySpeedOp .down t ∧ applySpeedOp .down t ≤ 8)) := by
  constructor
  · have hr : reachableSpeed (applySpeedOps ops s) := by
      induction ops generalizing s with
      | nil => exact hs
      | cons op rest ih =>
        simpa [applySpeedOps] using ih _ (applySpeedOp_reachable op s hs)
    refine ⟨hr, ?_⟩
    rcases hr with h | h | h | h | h <;> rw [h] <;> norm_num
  · intro t ht0 ht1
    refine ⟨⟨?_, ?_⟩, ⟨?_, ?_⟩⟩
    · simp only [applySpeedOp, le_min_iff]
      constructor <;> linarith
    · exact min_le_right _ _
    · exact le_max_right _ _
    · simp only [applySpeedOp, max_le_iff]
      constructor <;> linarith

/-- Witness for C4 as amended: from the initial speed 1, pressing the cycle
button four times runs through the set and the result stays within range. -/
theorem speed_ops_keep_range_witness :
    reachableSpeed (applySpeedOps [.cycle, .cycle, .cycle, .cycle] 1) ∧
    (1/2 : ℚ) ≤ applySpeedOps [.cycle, .cycle, .cycle, .cycle] 1 ∧
    applySpeedOps [.cycle, .cycle, .cycle, .cycle] 1 ≤ 8 := by
  exact (speed_ops_keep_range 1 (Or.inr (Or.inl rfl))
    [.cycle, .cycle, .cycle, .cycle]).1

/-- The progress-bar percentage of `ReplayPage`:
`(frameIndex / (raceData.frames.length - 1)) * 100`, exactly as written — with
no guard on the denominator. -/
def progressPercent (frameIndex : ℕ) (numFrames : ℕ) : ℚ :=
  ((frameIndex : ℚ) / ((numFrames : ℚ) - 1)) * 100

/-- The denominator of `progressPercent`. -/
def progressDenominator (numFrames : ℕ) : ℚ :=
  (numFrames : ℚ) - 1

/-- The pointer-seek target frame of the progress-bar click:
`Math.floor(percent * (raceData.frames.length - 1))` — a multiplication, it
performs no division at all. -/
def pointerSeekTarget (percent : ℚ) (numFrames : ℕ) : ℤ :=
  ⌊percent * ((numFrames : ℚ) - 1)⌋

/-- C5 at the failing input.  For a successfully loaded dataset with exactly
one frame the progress computation divides by `frames.length - 1 = 0`: the
code has no guard, so the division by zero occurs (JavaScript yields `NaN`
for `0/0`; the rational embedding makes `x / 0 = 0`).  The pointer-seek
target, by contrast, contains no division at all. -/
theorem progress_divides_by_zero_on_one_frame :
    progressDenominator 1 = 0 ∧
    (∀ i : ℕ, progressPercent i 1 = ((i : ℚ) / 0) * 100) ∧
    (∀ p : ℚ, pointerSeekTarget p 1 = ⌊p * 0⌋) := by
  refine ⟨by norm_num [progressDenominator], fun i => ?_, fun p => ?_⟩
  · norm_num [progressPercent]
  · norm_num [pointerSeekTarget]

/-- The DRS cell of the selected-driver info panel:
`drs >= 10 ? 'ON' : 'OFF'`. -/
def drsInfoCell (drs : ℤ) : String :=
  if drs ≥ 10 then "ON" else "OFF"

/-- The DRS cell of the timing board: `pos.drs >= 10 ? 'ON' : 'OFF'`. -/
def drsBoardCell (drs : ℤ) : String :=
  if drs ≥ 10 then "ON" else "OFF"

/-- C8.  In both the driver info panel and the timing board the displayed DRS
state is ON exactly when the integer drs value is at least 10; in particular
9 displays OFF and 10 displays ON, in both places. -/
theorem drs_on_iff_ge_ten :
    (∀ drs : ℤ, drsInfoCell drs = drsBoardCell drs ∧
      ((10 ≤ drs ∧ drsInfoCell drs = "ON") ∨ (drs < 10 ∧ drsInfoCell drs = "OFF"))) ∧
    drsInfoCell 9 = "OFF" ∧ drsInfoCell 10 = "ON" ∧
    drsBoardCell 9 = "OFF" ∧ drsBoardCell 10 = "ON" := by
  refine ⟨fun drs => ⟨rfl, ?_⟩, rfl, rfl, rfl, rfl⟩
  by_cases h : 10 ≤ drs
  · exact Or.inl ⟨h, by simp [drsInfoCell, h]⟩
  · exact Or.inr ⟨by omega, by simp [drsInfoCell, h]⟩

/-- The best-lap fold body of the timing board:
`if (l.time && (bestLapTime === null || l.time < bestLapTime)) bestLapTime = l.time`.
JavaScript truthiness makes a `0` lap time fall through like `null`. -/
def bestLapStep (best : Option ℚ) (l : LapEntry) : Option ℚ :=
  match l.time with
  | none => best
  | some v =>
    if v = 0 then best
    else
      match best with
      | none => some v
      | some b => if v < b then some v else best

/-- `bestLapTime`: the fold of `bestLapStep` over `Object.values(lapData.laps)`
— the driver's whole laps table, with no restriction to the current lap. -/
def bestLapTime (laps : List (ℕ × LapEntry)) : Option ℚ :=
  laps.foldl (fun best e => bestLapStep best e.2) none

/-- Modelled from the claim's words for comparison: the minimum over only the
laps already reached at the current lap number. -/
def bestLapTimeUpTo (laps : List (ℕ × LapEntry)) (currentLap : ℤ) : Option ℚ :=
  bestLapTime (laps.filter (fun e => (e.1 : ℤ) ≤ currentLap))

/-- A lap entry holding only a lap time, for concrete tables. -/
def lapEntryOf (time : Option ℚ) : LapEntry :=
  ⟨time, none, none, none, false, "SOFT"⟩

/-- Counterexample for C6.  With a table containing lap 1 at 100s and lap 2 at
90s, at current lap 1 (lap 2 not yet reached) the code's best lap is 90 — the
whole table contributes — while the minimum over the laps reached so far is
100. -/
theorem bestLap_uses_whole_table :
    bestLapTime [(1, lapEntryOf (some 100)), (2, lapEntryOf (some 90))] = some 90 ∧
    bestLapTimeUpTo [(1, lapEntryOf (some 100)), (2, lapEntryOf (some 90))] 1 = some 100 ∧
    bestLapTime [(1, lapEntryOf (some 100)), (2, lapEntryOf (some 90))] ≠
      bestLapTimeUpTo [(1, lapEntryOf (some 100)), (2, lapEntryOf (some 90))] 1 := by
  refine ⟨?_, ?_, ?_⟩ <;> decide

/-- If the fold starting from `acc` yields `some b`, then `b` is `acc`'s value
or a non-zero lap time of the list. -/
theorem bestLap_foldl_mem (laps : List (ℕ × LapEntry)) :
    ∀ (acc : Option ℚ) (b : ℚ),
      laps.foldl (fun best e => bestLapStep best e.2) acc = some b →
      acc = some b ∨ ∃ e ∈ laps, e.2.time = some b ∧ b ≠ 0 := by
  induction laps with
  | nil => intro acc b h; exact Or.inl h
  | cons hd tl ih =>
    intro acc b h
    rcases ih (bestLapStep acc hd.2) b h with hacc | ⟨e, he, het, hne⟩
    · rcases hv : hd.2.time with _ | v
      · simp only [bestLapStep, hv] at hacc
        exact Or.inl hacc
      · by_cases hz : v = 0
        · simp only [bestLapStep, hv, if_pos hz] at hacc
          exact Or.inl hacc
        · rcases acc with _ | a
          · simp only [bestLapStep, hv, if_neg hz, Option.some.injEq] at hacc
            subst hacc
            exact Or.inr ⟨hd, List.mem_cons_self _ _, hv, hz⟩
          · by_cases hlt : v < a
            · simp only [bestLapStep, hv, if_neg hz, if_pos hlt, Option.some.injEq] at hacc
              subst hacc
              exact Or.inr ⟨hd, List.mem_cons_self _ _, hv, hz⟩
            · simp only [bestLapStep, hv, if_neg hz, if_neg hlt] at hacc
              exact Or.inl hacc
    · exact Or.inr ⟨e, List.mem_cons_of_mem _ he, het, hne⟩

/-- If the fold starting from `acc` yields `some b`, then `b` is a lower bound
of `acc`'s value and of every non-zero lap time of the list. -/
theorem bestLap_foldl_le (laps : List (ℕ × LapEntry)) :
    ∀ (acc : Option ℚ) (b : ℚ),
      laps.foldl (fun best e => bestLapStep best e.2) acc = some b →
      (∀ a, acc = some a → b ≤ a) ∧
      (∀ e ∈ laps, ∀ v, e.2.time = some v → v ≠ 0 → b ≤ v) := by
  induction laps with
  | nil =>
    intro acc b h
    refine ⟨fun a ha => ?_, fun e he => absurd he (List.not_mem_nil e)⟩
    simp only [List.foldl_nil] at h
    rw [ha] at h; cases h; exact le_refl _
  | cons hd tl ih =>
    intro acc b h
    obtain ⟨ihacc, ihtl⟩ := ih (bestLapStep acc hd.2) b h
    have hstep : ∀ a, acc = some a → ∃ c, bestLapStep acc hd.2 = some c ∧ c ≤ a := by
      intro a ha
      subst ha
      rcases hv : hd.2.time with _ | v
      · exact ⟨a, by simp only [bestLapStep, hv], le_refl a⟩
      · by_cases hz : v = 0
        · exact ⟨a, by simp only [bestLapStep, hv, if_pos hz], le_refl a⟩
        · by_cases hlt : v < a
          · exact ⟨v, by simp only [bestLapStep, hv, if_neg hz, if_pos hlt], le_of_lt hlt⟩
          · exact ⟨a, by simp only [bestLapStep, hv, if_neg hz, if_neg hlt], le_refl a⟩
    have hheadle : ∀ v, hd.2.time = some v → v ≠ 0 → b ≤ v := by
      intro v hv hz
      have hcur : ∃ c, bestLapStep acc hd.2 = some c ∧ c ≤ v := by
        rcases acc with _ | a
        · exact ⟨v, by simp only [bestLapStep, hv, if_neg hz], le_refl v⟩
        · by_cases hlt : v < a
          · exact ⟨v, by simp only [bestLapStep, hv, if_neg hz, if_pos hlt], le_refl v⟩
          · exact ⟨a, by simp only [bestLapStep, hv, if_neg hz, if_neg hlt], le_of_not_lt hlt⟩
      obtain ⟨c, hc, hcv⟩ := hcur
      exact le_trans (ihacc c hc) hcv
    refine ⟨fun a ha => ?_, fun e he v hv hz => ?_⟩
    · obtain ⟨c, hc, hca⟩ := hstep a ha
      exact le_trans (ihacc c hc) hca
    · rcases List.mem_cons.mp he with rfl | hmem
      · exact hheadle v hv hz
      · exact ihtl e hmem v hv hz

/-- C6 as amended.  The displayed best lap is the minimum of the non-null,
non-zero lap times over the driver's entire lap-timing table: every lap in the
table contributes, including laps beyond the point the replay has reached. -/
theorem bestLap_is_min_of_whole_table (laps : List (ℕ × LapEntry)) (b : ℚ)
    (hb : bestLapTime laps = some b) :
    (∃ e ∈ laps, e.2.time = some b ∧ b ≠ 0) ∧
    (∀ e ∈ laps, ∀ v, e.2.time = some v → v ≠ 0 → b ≤ v) := by
  constructor
  · rcases bestLap_foldl_mem laps none b hb with h | h
    · cases h
    · exact h
  · exact (bestLap_foldl_le laps none b hb).2

/-- Witness for C6 as amended, on a three-lap table with a null entry. -/
theorem bestLap_is_min_of_whole_table_witness :
    (∃ e ∈ [(1, lapEntryOf (some 100)), (2, lapEntryOf none), (3, lapEntryOf (some 92))],
      e.2.time = some 92 ∧ (92 : ℚ) ≠ 0) ∧
    (∀ e ∈ [(1, lapEntryOf (some 100)), (2, lapEntryOf none), (3, lapEntryOf (some 92))],
      ∀ v, e.2.time = some v → v ≠ 0 → (92 : ℚ) ≤ v) := by
  exact bestLap_is_min_of_whole_table
    [(1, lapEntryOf (some 100)), (2, lapEntryOf none), (3, lapEntryOf (some 92))]
    92 (by decide)

/-- JavaScript truthiness of a nullable lap time: `null`, `undefined` and `0`
are falsy. -/
def truthyTime : Option ℚ → Bool
  | none => false
  | some v => decide (v ≠ 0)

/-- `gapToLeader` of the timing board:
`lastLapData?.time && leaderLapData?.time ? lastLapData.time - leaderLapData.time : 0`. -/
def gapToLeader (lastLap leaderLap : Option ℚ) : ℚ :=
  if truthyTime lastLap ∧ truthyTime leaderLap then lastLap.getD 0 - leaderLap.getD 0
  else 0

/-- What the gap cell renders. -/
inductive GapCell where
  /-- the `'Leader'` sentinel on the leader's row -/
  | leader
  /-- the `'—'` sentinel -/
  | dash
  /-- `` `+${q.toFixed(3)}s` `` with `q` the rendered (non-negative) number -/
  | plus (q : ℚ)
deriving DecidableEq

/-- The gap cell of the timing board at row `idx`:
`idx === 0 ? 'Leader' : gapToLeader ? `+${Math.abs(gapToLeader).toFixed(3)}s` : '—'`. -/
def gapCell (idx : ℕ) (gap : ℚ) : GapCell :=
  if idx = 0 then .leader
  else if gap ≠ 0 then .plus |gap| else .dash

/-- Counterexample for C7.  A non-leader whose last lap (88s) was faster than
the leader's (90s) has signed gap `88 − 90 = −2`, but the cell renders
`Math.abs` of it with a `+` prefix: `+2.000s`, not the signed value; so the
displayed gap does not equal the (signed) lap-time difference. -/
theorem gap_cell_renders_abs :
    gapToLeader (some 88) (some 90) = -2 ∧
    gapCell 1 (gapToLeader (some 88) (some 90)) = .plus 2 ∧
    gapCell 1 (gapToLeader (some 88) (some 90)) ≠ .plus (88 - 90) := by
  have h1 : gapToLeader (some 88) (some 90) = -2 := by
    norm_num [gapToLeader, truthyTime]
  have habs : |(-2 : ℚ)| = 2 := by norm_num
  have h2 : gapCell 1 (gapToLeader (some 88) (some 90)) = .plus 2 := by
    rw [h1]
    simp [gapCell, habs, show (-2 : ℚ) ≠ 0 by norm_num]
  refine ⟨h1, h2, ?_⟩
  rw [h2, show (88 - 90 : ℚ) = -2 by norm_num]
  simp only [ne_eq, GapCell.plus.injEq]
  norm_num

/-- C7 as amended.  The leader's row always displays the `Leader` sentinel
(never a number).  A non-leader row with both last-lap times present and
non-zero displays `+` followed by the absolute value of (driver's last-lap
time − leader's last-lap time) when that difference is non-zero — matching the
signed difference only when the driver was slower — and the `—` sentinel when
the difference is zero. -/
theorem gap_cell_spec (gap : ℚ) (idx : ℕ) (hidx : idx ≠ 0)
    (a b : ℚ) (ha : a ≠ 0) (hb : b ≠ 0) :
    gapCell 0 gap = .leader ∧
    gapToLeader (some a) (some b) = a - b ∧
    (a - b ≠ 0 → gapCell idx (gapToLeader (some a) (some b)) = .plus |a - b|) ∧
    (a - b = 0 → gapCell idx (gapToLeader (some a) (some b)) = .dash) := by
  have hval : gapToLeader (some a) (some b) = a - b := by
    simp [gapToLeader, truthyTime, ha, hb]
  refine ⟨by simp [gapCell], hval, fun hne => ?_, fun heq => ?_⟩
  · simp [gapCell, hval, hidx, hne]
  · simp [gapCell, hval, hidx, heq]

/-- Witness for C7 as amended: row 2, last lap 92.345s against the leader's
90s, displays `+2.345s`; identical 90s lap times display the dash. -/
theorem gap_cell_spec_witness :
    gapCell 0 (37 : ℚ) = .leader ∧
    gapToLeader (some (92345/1000)) (some 90) = 92345/1000 - 90 ∧
    ((92345/1000 : ℚ) - 90 ≠ 0 →
      gapCell 2 (gapToLeader (some (92345/1000)) (some 90)) = .plus |92345/1000 - 90|) ∧
    ((92345/1000 : ℚ) - 90 = 0 →
      gapCell 2 (gapToLeader (some (92345/1000)) (some 90)) = .dash) := by
  exact gap_cell_spec 37 2 (by decide) (92345/1000) 90 (by norm_num) (by norm_num)

/-- The fallback-timeout callback for a fired radio cue with timestamp
`clipTimestamp`:
`setCurrentRadio(prev => prev?.t === clipTimestamp ? null : prev)`. -/
def radioTimeoutFire (clipTimestamp : ℚ) (prev : Option TeamRadioClip) :
    Option TeamRadioClip :=
  match prev with
  | none => none
  | some c => if c.t = clipTimestamp then none else some c

/-- The counterexample cues for C10: two distinct cues sharing timestamp 100. -/
def cueVER : TeamRadioClip := ⟨100, "VER", 1, "ver.mp3"⟩

/-- The second same-timestamp cue. -/
def cueHAM : TeamRadioClip := ⟨100, "HAM", 44, "ham.mp3"⟩

/-- Counterexample for C10.  The timeout guard compares timestamps, not cue
identity: after cue VER (t = 100) fires and the distinct cue HAM (also
t = 100) becomes the announced cue, VER's 8-second timeout clears HAM's
announcement rather than leaving it unchanged. -/
theorem radio_timeout_clears_same_timestamp :
    cueHAM ≠ cueVER ∧ cueHAM.t = cueVER.t ∧
    radioTimeoutFire cueVER.t (some cueHAM) = none ∧
    radioTimeoutFire cueVER.t (some cueHAM) ≠ some cueHAM := by
  refine ⟨?_, ?_, ?_, ?_⟩ <;> decide

/-- C10 as amended.  The fallback timeout clears the announced cue exactly
when its timestamp equals the fired cue's timestamp: a later-announced cue
with a different timestamp is left unchanged, but one sharing the fired cue's
timestamp is cleared; with nothing announced it does nothing. -/
theorem radio_timeout_guard (ts : ℚ) (c : TeamRadioClip) :
    (c.t = ts → radioTimeoutFire ts (some c) = none) ∧
    (c.t ≠ ts → radioTimeoutFire ts (some c) = some c) ∧
    radioTimeoutFire ts none = none := by
  refine ⟨fun h => ?_, fun h => ?_, rfl⟩
  · simp [radioTimeoutFire, h]
  · simp [radioTimeoutFire, h]

/-- The firing window test of the team-radio playback effect:
`currentTime >= clip.t && currentTime < clip.t + 3`. -/
def cueEligible (c : TeamRadioClip) (time : ℚ) : Prop :=
  c.t ≤ time ∧ time < c.t + 3

instance (c : TeamRadioClip) (time : ℚ) : Decidable (cueEligible c time) :=
  inferInstanceAs (Decidable (c.t ≤ time ∧ time < c.t + 3))

/-- The `for` loop of the playback effect, scanning cues in index order from
index `i`: the first cue not in the played set whose window contains the
current time is returned (`break` after one firing). -/
def scanCues (played : Finset ℕ) (time : ℚ) :
    List TeamRadioClip → ℕ → Option ℕ
  | [], _ => none
  | c :: rest, i =>
    if i ∉ played ∧ cueEligible c time then some i
    else scanCues played time rest (i + 1)

/-- One run of the team-radio playback effect (triggered by a frame-index
change): if the radio is enabled, the user has interacted and there are cues,
scan for the first eligible unplayed cue; firing adds its index to
`playedRadioClipsRef`.  Returns (fired cue index, played set). -/
def fireStep (clips : List TeamRadioClip) (radioEnabled hasInteracted : Bool)
    (time : ℚ) (played : Finset ℕ) : Option ℕ × Finset ℕ :=
  if radioEnabled && hasInteracted && !clips.isEmpty then
    match scanCues played time clips 0 with
    | none => (none, played)
    | some i => (some i, insert i played)
  else (none, played)

/-- The keep test of the played-clips reset effect: an index is deleted when
its clip exists and `clip.t > currentTime`. -/
def keepCue (clips : List TeamRadioClip) (time : ℚ) (i : ℕ) : Bool :=
  match clips[i]? with
  | none => true
  | some c => decide (c.t ≤ time)

/-- The played-clips reset effect: remove from the played set every index
whose cue timestamp is in the future relative to the current time. -/
def cleanStep (clips : List TeamRadioClip) (time : ℚ) (played : Finset ℕ) :
    Finset ℕ :=
  played.filter (fun i => keepCue clips time i = true)

/-- Both effects in declaration order on one frame-index change: the playback
effect, then the reset effect. -/
def radioStep (clips : List TeamRadioClip) (radioEnabled hasInteracted : Bool)
    (time : ℚ) (played : Finset ℕ) : Option ℕ × Finset ℕ :=
  let fired := fireStep clips radioEnabled hasInteracted time played
  (fired.1, cleanStep clips time fired.2)

/-- How many times cue `idx` fires while the current time runs through
`times`, starting from the given played set. -/
def countFires (clips : List TeamRadioClip) (radioEnabled hasInteracted : Bool)
    (idx : ℕ) : List ℚ → Finset ℕ → ℕ
  | [], _ => 0
  | t :: rest, played =>
    (if (radioStep clips radioEnabled hasInteracted t played).1 = some idx then 1 else 0) +
      countFires clips radioEnabled hasInteracted idx rest
        (radioStep clips radioEnabled hasInteracted t played).2

/-- A successful scan returns an index past `i0` holding an unplayed cue whose
window contains the time, and every index before it was played or out of
window. -/
theorem scanCues_some (played : Finset ℕ) (time : ℚ) :
    ∀ (l : List TeamRadioClip) (i0 j : ℕ), scanCues played time l i0 = some j →
      ∃ k c, l[k]? = some c ∧ j = i0 + k ∧ j ∉ played ∧ cueEligible c time ∧
        ∀ m c', m < k → l[m]? = some c' → (i0 + m) ∈ played ∨ ¬cueEligible c' time := by
  intro l
  induction l with
  | nil => intro i0 j h; cases h
  | cons c rest ih =>
    intro i0 j h
    by_cases hc : i0 ∉ played ∧ cueEligible c time
    · rw [scanCues, if_pos hc] at h
      injection h with hj
      subst hj
      exact ⟨0, c, by simp, rfl, hc.1, hc.2, fun m c' hm => absurd hm (Nat.not_lt_zero m)⟩
    · rw [scanCues, if_neg hc] at h
      obtain ⟨k, c', hget, hjk, hnp, helig, hmin⟩ := ih (i0 + 1) j h
      refine ⟨k + 1, c', by simpa using hget, by omega, hnp, helig, ?_⟩
      intro m cm hm hgm
      cases m with
      | zero =>
        simp only [List.getElem?_cons_zero, Option.some.injEq] at hgm
        subst hgm
        rw [Nat.add_zero]
        rcases not_and_or.mp hc with h1 | h2
        · exact Or.inl (not_not.mp h1)
        · exact Or.inr h2
      | succ m' =>
        have h := hmin m' cm (by omega) (by simpa using hgm)
        rwa [show i0 + 1 + m' = i0 + (m' + 1) from by omega] at h

/-- The scan fires the cue at `k` when that cue is unplayed and in window and
every cue before it is out of window. -/
theorem scanCues_hits (played : Finset ℕ) (time : ℚ) :
    ∀ (l : List TeamRadioClip) (i0 k : ℕ) (c : TeamRadioClip),
      l[k]? = some c → (i0 + k) ∉ played → cueEligible c time →
      (∀ m c', m < k → l[m]? = some c' → ¬cueEligible c' time) →
      scanCues played time l i0 = some (i0 + k) := by
  intro l
  induction l with
  | nil => intro i0 k c hg; simp at hg
  | cons hd rest ih =>
    intro i0 k c hg hnp helig hmin
    cases k with
    | zero =>
      simp only [List.getElem?_cons_zero, Option.some.injEq] at hg
      subst hg
      rw [Nat.add_zero] at hnp
      rw [scanCues, if_pos ⟨hnp, helig⟩, Nat.add_zero]
    | succ k' =>
      have hhd : ¬cueEligible hd time := hmin 0 hd (Nat.succ_pos k') (by simp)
      rw [scanCues, if_neg (fun hcon => hhd hcon.2)]
      have h := ih (i0 + 1) k' c (by simpa using hg)
        (by rwa [show i0 + 1 + k' = i0 + (k' + 1) from by omega]) helig
        (fun m c' hm hgm => hmin (m + 1) c' (by omega) (by simpa using hgm))
      rwa [show i0 + 1 + k' = i0 + (k' + 1) from by omega] at h

/-- `fireStep` either leaves the state alone or fires the index the scan
found, inserting it into the played set. -/
theorem fireStep_cases (clips : List TeamRadioClip) (e i : Bool) (t : ℚ)
    (played : Finset ℕ) :
    fireStep clips e i t played = (none, played) ∨
    ∃ j, scanCues played t clips 0 = some j ∧
      fireStep clips e i t played = (some j, insert j played) := by
  unfold fireStep
  by_cases hcond : (e && i && !clips.isEmpty) = true
  · rw [if_pos hcond]
    rcases hscan : scanCues played t clips 0 with _ | j
    · exact Or.inl rfl
    · exact Or.inr ⟨j, hscan ▸ rfl, rfl⟩
  · rw [if_neg hcond]
    exact Or.inl rfl

/-- Firing never shrinks the played set. -/
theorem fireStep_superset (clips : List TeamRadioClip) (e i : Bool) (t : ℚ)
    (played : Finset ℕ) : played ⊆ (fireStep clips e i t played).2 := by
  rcases fireStep_cases clips e i t played with hc | ⟨j, _, hc⟩
  · rw [hc]
  · rw [hc]
    exact Finset.subset_insert j played

/-- The first projection of `radioStep` is the fired cue of `fireStep`. -/
theorem radioStep_fst (clips : List TeamRadioClip) (e i : Bool) (t : ℚ)
    (played : Finset ℕ) :
    (radioStep clips e i t played).1 = (fireStep clips e i t played).1 := rfl

/-- The second projection of `radioStep` is the cleaned played set. -/
theorem radioStep_snd (clips : List TeamRadioClip) (e i : Bool) (t : ℚ)
    (played : Finset ℕ) :
    (radioStep clips e i t played).2 =
      cleanStep clips t (fireStep clips e i t played).2 := rfl

/-- The reset effect keeps a played index whose cue time has been reached. -/
theorem cleanStep_keeps (clips : List TeamRadioClip) (t : ℚ) (played : Finset ℕ)
    (idx : ℕ) (cidx : TeamRadioClip) (hclip : clips[idx]? = some cidx)
    (hmem : idx ∈ played) (hle : cidx.t ≤ t) : idx ∈ cleanStep clips t played := by
  refine Finset.mem_filter.mpr ⟨hmem, ?_⟩
  simp [keepCue, hclip, hle]

/-- The reset effect drops every index whose cue time is in the future. -/
theorem cleanStep_removes (clips : List TeamRadioClip) (t : ℚ) (played : Finset ℕ)
    (idx : ℕ) (cidx : TeamRadioClip) (hclip : clips[idx]? = some cidx)
    (hgt : t < cidx.t) : idx ∉ cleanStep clips t played := by
  intro hmem
  have h := (Finset.mem_filter.mp hmem).2
  simp only [keepCue, hclip, decide_eq_true_eq] at h
  exact absurd h (not_le.mpr hgt)

/-- A fired cue was unplayed, exists in the list, was in window, and was the
first such in index order (every earlier cue is played or out of window). -/
theorem radioStep_fired_spec (clips : List TeamRadioClip) (t : ℚ)
    (played : Finset ℕ) (j : ℕ)
    (h : (radioStep clips true true t played).1 = some j) :
    j ∉ played ∧ ∃ cj, clips[j]? = some cj ∧ cueEligible cj t ∧
      ∀ m c', m < j → clips[m]? = some c' → m ∈ played ∨ ¬cueEligible c' t := by
  rw [radioStep_fst] at h
  rcases fireStep_cases clips true true t played with hc | ⟨j', hscan, hc⟩
  · rw [hc] at h; cases h
  · rw [hc] at h
    simp only [Option.some.injEq] at h
    subst h
    obtain ⟨k, c, hget, hjk, hnp, helig, hmin⟩ := scanCues_some played t clips 0 j' hscan
    simp only [Nat.zero_add] at hjk
    subst hjk
    refine ⟨hnp, c, hget, helig, fun m c' hm hgm => ?_⟩
    have h := hmin m c' hm hgm
    rwa [Nat.zero_add] at h

/-- After firing, the fired index is in the cleaned played set (its cue time
has been reached, since it was in window). -/
theorem radioStep_fired_mem (clips : List TeamRadioClip) (idx : ℕ)
    (cidx : TeamRadioClip) (hclip : clips[idx]? = some cidx) (t : ℚ)
    (played : Finset ℕ) (hle : cidx.t ≤ t)
    (hfire : (radioStep clips true true t played).1 = some idx) :
    idx ∈ (radioStep clips true true t played).2 := by
  have hf : (fireStep clips true true t played).1 = some idx := hfire
  rcases fireStep_cases clips true true t played with hc | ⟨j, hscan, hc⟩
  · rw [hc] at hf; cases hf
  · rw [hc] at hf
    simp only [Option.some.injEq] at hf
    subst hf
    rw [radioStep_snd, hc]
    exact cleanStep_keeps clips t _ j cidx hclip (Finset.mem_insert_self j played) hle

/-- An index already played and whose cue time has been reached stays played
and does not fire again. -/
theorem radioStep_keeps_fired (clips : List TeamRadioClip) (idx : ℕ)
    (cidx : TeamRadioClip) (hclip : clips[idx]? = some cidx) (t : ℚ)
    (played : Finset ℕ) (hmem : idx ∈ played) (hle : cidx.t ≤ t) :
    idx ∈ (radioStep clips true true t played).2 ∧
    (radioStep clips true true t played).1 ≠ some idx := by
  constructor
  · rw [radioStep_snd]
    exact cleanStep_keeps clips t _ idx cidx hclip
      (fireStep_superset clips true true t played hmem) hle
  · intro hfired
    exact (radioStep_fired_spec clips t played idx hfired).1 hmem

/-- An unplayed index that does not fire stays unplayed. -/
theorem radioStep_not_fired_not_mem (clips : List TeamRadioClip) (t : ℚ)
    (played : Finset ℕ) (idx : ℕ) (hn : idx ∉ played)
    (hfire : (radioStep clips true true t played).1 ≠ some idx) :
    idx ∉ (radioStep clips true true t played).2 := by
  rw [radioStep_snd]
  intro hmem
  have hmem2 := (Finset.mem_filter.mp hmem).1
  rcases fireStep_cases clips true true t played with hc | ⟨j, hscan, hc⟩
  · rw [hc] at hmem2; exact hn hmem2
  · rw [hc] at hmem2
    rcases Finset.mem_insert.mp hmem2 with rfl | h
    · exact hfire (by rw [radioStep_fst, hc])
    · exact hn h

/-- The step fires an unplayed in-window cue when every earlier cue is out of
window. -/
theorem radioStep_fires (clips : List TeamRadioClip) (idx : ℕ)
    (cidx : TeamRadioClip) (hclip : clips[idx]? = some cidx) (t : ℚ)
    (played : Finset ℕ) (hn : idx ∉ played) (helig : cueEligible cidx t)
    (hmin : ∀ m c', m < idx → clips[m]? = some c' → ¬cueEligible c' t) :
    (radioStep clips true true t played).1 = some idx := by
  have hscan : scanCues played t clips 0 = some idx := by
    have h := scanCues_hits played t clips 0 idx cidx hclip (by simpa using hn)
      helig hmin
    simpa using h
  have hne : clips.isEmpty = false := by
    cases clips
    · simp at hclip
    · rfl
  rw [radioStep_fst]
  unfold fireStep
  rw [if_pos (by simp [hne]), hscan]

/-- A cue already fired fires zero further times while the time stays at or
past its timestamp. -/
theorem countFires_zero_of_played (clips : List TeamRadioClip) (idx : ℕ)
    (cidx : TeamRadioClip) (hclip : clips[idx]? = some cidx) :
    ∀ (times : List ℚ) (played : Finset ℕ), idx ∈ played →
      (∀ t ∈ times, cidx.t ≤ t) →
      countFires clips true true idx times played = 0 := by
  intro times
  induction times with
  | nil => intro played _ _; rfl
  | cons t rest ih =>
    intro played hmem hts
    have h := radioStep_keeps_fired clips idx cidx hclip t played hmem
      (hts t (List.mem_cons_self _ _))
    simp only [countFires, if_neg h.2, Nat.zero_add]
    exact ih _ h.1 (fun u hu => hts u (List.mem_cons_of_mem _ hu))

/-- A cue fires at most once over any forward sweep that never moves before
its timestamp. -/
theorem countFires_le_one (clips : List TeamRadioClip) (idx : ℕ)
    (cidx : TeamRadioClip) (hclip : clips[idx]? = some cidx) :
    ∀ (times : List ℚ) (played : Finset ℕ),
      (∀ t ∈ times, cidx.t ≤ t) →
      countFires clips true true idx times played ≤ 1 := by
  intro times
  induction times with
  | nil => intro played _; exact Nat.zero_le 1
  | cons t rest ih =>
    intro played hts
    by_cases hfire : (radioStep clips true true t played).1 = some idx
    · have hmem := radioStep_fired_mem clips idx cidx hclip t played
        (hts t (List.mem_cons_self _ _)) hfire
      simp only [countFires, if_pos hfire]
      rw [countFires_zero_of_played clips idx cidx hclip rest _ hmem
        (fun u hu => hts u (List.mem_cons_of_mem _ hu))]
    · simp only [countFires, if_neg hfire, Nat.zero_add]
      exact ih _ (fun u hu => hts u (List.mem_cons_of_mem _ hu))

/-- A not-yet-fired cue fires at least once during a sweep containing a time
at which it is in window and every earlier cue is out of window. -/
theorem countFires_ge_one (clips : List TeamRadioClip) (idx : ℕ)
    (cidx : TeamRadioClip) (hclip : clips[idx]? = some cidx) :
    ∀ (times : List ℚ) (played : Finset ℕ), idx ∉ played →
      (∃ tstar ∈ times, cueEligible cidx tstar ∧
        ∀ m c', m < idx → clips[m]? = some c' → ¬cueEligible c' tstar) →
      1 ≤ countFires clips true true idx times played := by
  intro times
  induction times with
  | nil =>
    rintro played _ ⟨tstar, ht, _⟩
    exact absurd ht (List.not_mem_nil tstar)
  | cons t rest ih =>
    rintro played hn ⟨tstar, htmem, helig, hmin⟩
    by_cases hfire : (radioStep clips true true t played).1 = some idx
    · simp only [countFires, if_pos hfire]
      omega
    · have hrest : tstar ∈ rest := by
        rcases List.mem_cons.mp htmem with rfl | h
        · exact absurd (radioStep_fires clips idx cidx hclip tstar played hn helig hmin)
            hfire
        · exact h
      simp only [countFires, if_neg hfire, Nat.zero_add]
      exact ih _ (radioStep_not_fired_not_mem clips t played idx hn hfire)
        ⟨tstar, hrest, helig, hmin⟩

/-- C2.  With radio enabled and the user interacted, a cue with index `idx`
and timestamp `cidx.t`: (1) fires exactly once over any forward sweep of the
current time that never moves before the timestamp, provided the sweep meets
the window `[t, t+3)` at an instant where no earlier-indexed cue is in its own
window (first match in index order wins); (2) whenever the current time moves
strictly before the timestamp, the cue is removed from the fired set by the
reset effect, re-arming it for forward replay; and (3) at most one cue fires
per frame-index change — the fired cue is the first unplayed in-window cue in
index order. -/
theorem radio_cue_fires_once (clips : List TeamRadioClip) (idx : ℕ)
    (cidx : TeamRadioClip) (hclip : clips[idx]? = some cidx) :
    (∀ (times : List ℚ) (played : Finset ℕ), idx ∉ played →
      (∀ t ∈ times, cidx.t ≤ t) →
      (∃ tstar ∈ times, cueEligible cidx tstar ∧
        ∀ m c', m < idx → clips[m]? = some c' → ¬cueEligible c' tstar) →
      countFires clips true true idx times played = 1) ∧
    (∀ (t : ℚ) (played : Finset ℕ), t < cidx.t →
      idx ∉ (radioStep clips true true t played).2) ∧
    (∀ (t : ℚ) (played : Finset ℕ) (j : ℕ),
      (radioStep clips true true t played).1 = some j →
      j ∉ played ∧ ∃ cj, clips[j]? = some cj ∧ cueEligible cj t ∧
        ∀ m c', m < j → clips[m]? = some c' → m ∈ played ∨ ¬cueEligible c' t) := by
  refine ⟨fun times played hn hts hex => ?_, fun t played hlt => ?_,
    fun t played j h => radioStep_fired_spec clips t played j h⟩
  · exact le_antisymm (countFires_le_one clips idx cidx hclip times played hts)
      (countFires_ge_one clips idx cidx hclip times played hn hex)
  · rw [radioStep_snd]
    exact cleanStep_removes clips t _ idx cidx hclip hlt

/-- Witness for C2: the single cue at t = 100 fires exactly once over the
forward sweep 100, 101, 104, and is re-armed by a step at t = 50 even when
already in the fired set. -/
theorem radio_cue_fires_once_witness :
    countFires [cueVER] true true 0 [100, 101, 104] ∅ = 1 ∧
    0 ∉ (radioStep [cueVER] true true 50 {0}).2 := by
  have h := radio_cue_fires_once [cueVER] 0 cueVER rfl
  refine ⟨h.1 [100, 101, 104] ∅ (by decide) ?_ ?_, h.2.1 50 {0} (by norm_num [cueVER])⟩
  · intro t ht
    simp only [List.mem_cons, List.not_mem_nil, or_false] at ht
    rcases ht with rfl | rfl | rfl <;> norm_num [cueVER]
  · refine ⟨100, by simp, ?_, fun m c' hm => absurd hm (Nat.not_lt_zero m)⟩
    constructor <;> norm_num [cueVER]

end F1Replay
